import Mathlib

/-!
Verification of the key-value encoder and vector-commitment protocol layer
of `vector-commitment/src/vc.rs` (stateless-blockchain).

The encoder and the four protocol operations are embedded from the Rust
source. A slice access `keys[i]` that would panic in Rust is modelled by
`Option`: `none` is the out-of-bounds failure. The external accumulator
engine (the `binary` module of the `accumulator` crate, which only has its
interface pinned here) is modelled as an abstract structure of functions.
-/

namespace vc

/-- ValueType in the source is `u8`: an 8-bit unsigned integer, modelled as
`Fin 256`. -/
abbrev ValueType := Fin 256

/-- The bit width of a value: `core::mem::size_of::<ValueType>() * 8` with
`ValueType = u8`, so `1 * 8 = 8`. -/
def offset : Nat := 1 * 8

/-- `elem.to_le_bytes().to_vec()` for a `u8`: the single-byte little-endian
representation. -/
def to_le_bytes (elem : ValueType) : List Nat := [elem.val]

/-- `BitVec::from_bytes` expands one byte into its 8 bits in
most-significant-bit-first order: bit `i` of the output is bit `7 - i` of
the byte. -/
def byte_to_bits (b : Nat) : List Bool :=
  (List.range 8).map (fun i => Nat.testBit b (7 - i))

/-- `to_binary`: serialize the value to little-endian bytes, then expand
each byte most-significant-bit-first (`BitVec::from_bytes` + collect). -/
def to_binary (elem : ValueType) : List Bool :=
  List.flatten ((to_le_bytes elem).map byte_to_bits)

/-- The loop of `convert_key_value`: iterate over `values` with index `i`,
read `keys[i]` (a panicking slice index, modelled by `Option`), append the
bit decomposition of the value and the index range
`keys[i]*offset .. keys[i]*offset+offset`. -/
def convert_loop (keys : List Nat) : Nat → List ValueType → Option (List Bool × List Nat)
  | _, [] => some ([], [])
  | i, value :: rest =>
    match keys[i]? with
    | none => none
    | some k =>
      let value_vec := to_binary value
      let index_vec := List.range' (k * offset) offset
      match convert_loop keys (i + 1) rest with
      | none => none
      | some (binary_vec, indices) => some (value_vec ++ binary_vec, index_vec ++ indices)

/-- `convert_key_value`: converts key-value pairs into a binary
representation of the values along with corresponding indices. `none`
models the Rust panic on an out-of-bounds `keys[i]`. -/
def convert_key_value (keys : List Nat) (values : List ValueType) :
    Option (List Bool × List Nat) :=
  convert_loop keys 0 values

/-- Modelled from the spec: the interface of the external accumulator
engine (the `binary` module), pinned in section 6 of the specification and
absent from the visible source. `U` is the digest type (`U2048`), `Wit`
the witness type. Each field is one engine operation; contracts on them
are taken as hypotheses where a claim needs them. -/
structure Engine (U Wit : Type) where
  commit : U → List Bool → List Nat → U × U
  batch_open : U → U → List Bool → List Nat → Wit × Wit
  batch_verify : U → U → List Bool → List Nat → Wit → Wit → Bool
  update : U → U → U → List Bool → List Nat → U
  get_bit_elems : List Bool → List Nat → U × U

variable {U Wit : Type}

/-- Commit to a set of keys and corresponding values: encode, then one
call to the engine. -/
def commit (E : Engine U Wit) (accumulator : U) (keys : List Nat)
    (values : List ValueType) : Option (U × U) :=
  match convert_key_value keys values with
  | none => none
  | some (binary_vec, indices) => some (E.commit accumulator binary_vec indices)

/-- Open a commitment for a value at a specific key. -/
def open_at_key (E : Engine U Wit) (old_state product : U) (key : Nat)
    (value : ValueType) : Option (Wit × Wit) :=
  match convert_key_value [key] [value] with
  | none => none
  | some (binary_vec, indices) => some (E.batch_open old_state product binary_vec indices)

/-- Verify a commitment for a value at a specific key. -/
def verify_at_key (E : Engine U Wit) (old_state accumulator : U) (key : Nat)
    (value : ValueType) (pi_i pi_e : Wit) : Option Bool :=
  match convert_key_value [key] [value] with
  | none => none
  | some (binary_vec, indices) =>
    some (E.batch_verify old_state accumulator binary_vec indices pi_i pi_e)

/-- Update the values for a set of keys. -/
def update (E : Engine U Wit) (accumulator old_state agg : U) (keys : List Nat)
    (values : List ValueType) : Option U :=
  match convert_key_value keys values with
  | none => none
  | some (binary_vec, indices) => some (E.update accumulator old_state agg binary_vec indices)

/-- Helper that gets the product of the accumulated elements for a given
key-value pair. -/
def get_key_value_elem (E : Engine U Wit) (key : Nat) (value : ValueType) : Option U :=
  match convert_key_value [key] [value] with
  | none => none
  | some (binary_vec, indices) => some (E.get_bit_elems binary_vec indices).1

/-- A concrete engine over a transparent digest type, used to instantiate
theorems whose hypotheses are engine contracts: the digest records the
committed (bits, indices) pair, a witness is the (bits, indices) pair it
was derived for, and verification checks the witnesses against the
queried (bits, indices). It satisfies both the completeness and the
soundness contracts of section 6. -/
def ModelEngine : Engine (Option (List Bool × List Nat)) (List Bool × List Nat) where
  commit _ bv iv := (some (bv, iv), some (bv, iv))
  batch_open _ _ bv iv := ((bv, iv), (bv, iv))
  batch_verify _ _ bv iv pi_i pi_e := decide (pi_i = (bv, iv) ∧ pi_e = (bv, iv))
  update _ _ _ bv iv := some (bv, iv)
  get_bit_elems bv iv := (some (bv, iv), none)

/-! ### Basic properties of the bit decomposition -/

theorem to_binary_length (v : ValueType) : (to_binary v).length = offset := by
  simp [to_binary, to_le_bytes, byte_to_bits, offset]

set_option maxRecDepth 8192 in
theorem to_binary_foldl (v : ValueType) :
    (to_binary v).foldl (fun acc b => 2 * acc + b.toNat) 0 = v.val := by
  revert v; decide

theorem to_binary_injective {v w : ValueType} (h : to_binary v = to_binary w) : v = w := by
  have hv := to_binary_foldl v
  rw [h, to_binary_foldl] at hv
  exact Fin.ext hv.symm

/-! ### The encoder loop -/

theorem convert_single (k : Nat) (v : ValueType) :
    convert_key_value [k] [v] = some (to_binary v, List.range' (k * offset) offset) := by
  simp [convert_key_value, convert_loop]

theorem convert_loop_eq (keys : List Nat) (values : List ValueType) :
    ∀ i, i + values.length ≤ keys.length →
      convert_loop keys i values =
        some ((values.map to_binary).flatten,
              (((keys.drop i).take values.length).map
                  fun k => List.range' (k * offset) offset).flatten) := by
  induction values with
  | nil => intro i h; simp [convert_loop]
  | cons v vs ih =>
    intro i h
    have hi : i < keys.length := by simp at h; omega
    have h2 : (i + 1) + vs.length ≤ keys.length := by simp at h ⊢; omega
    simp only [convert_loop, List.getElem?_eq_getElem hi, ih (i + 1) h2,
      List.drop_eq_getElem_cons hi, List.length_cons, List.take_succ_cons,
      List.map_cons, List.flatten_cons]

theorem convert_loop_oob (keys : List Nat) (values : List ValueType) :
    ∀ i, keys.length < i + values.length → values ≠ [] →
      convert_loop keys i values = none := by
  induction values with
  | nil => intro i h hne; exact absurd rfl hne
  | cons v vs ih =>
    intro i h _
    match hk : keys[i]? with
    | none => simp [convert_loop, hk]
    | some k =>
      have hi : i < keys.length := by
        by_contra hc
        push_neg at hc
        rw [List.getElem?_eq_none hc] at hk
        exact absurd hk (by simp)
      match vs with
      | [] => simp at h; omega
      | v' :: vs' =>
        have hrec := ih (i + 1) (by simp at h ⊢; omega) (by simp)
        rw [convert_loop.eq_def]
        simp only [hk, hrec]

theorem convert_key_value_eq (keys : List Nat) (values : List ValueType)
    (h : values.length ≤ keys.length) :
    convert_key_value keys values =
      some ((values.map to_binary).flatten,
            ((keys.take values.length).map
                fun k => List.range' (k * offset) offset).flatten) := by
  simpa [convert_key_value] using convert_loop_eq keys values 0 (by omega)

theorem flatten_binary_length (values : List ValueType) :
    ((values.map to_binary).flatten).length = values.length * 8 := by
  induction values with
  | nil => simp
  | cons v vs ih =>
    have hv := to_binary_length v
    simp only [offset] at hv
    simp only [List.map_cons, List.flatten_cons, List.length_append, ih, hv,
      List.length_cons]
    omega

theorem flatten_indices_length (l : List Nat) :
    ((l.map fun k => List.range' (k * offset) offset).flatten).length = l.length * 8 := by
  induction l with
  | nil => simp
  | cons k ks ih =>
    simp only [List.map_cons, List.flatten_cons, List.length_append, ih,
      List.length_range', List.length_cons]
    simp only [offset]
    omega

theorem range'_offset_injective {a b : Nat} (h : List.range' a offset = List.range' b offset) :
    a = b := by
  have := congrArg List.head? h
  simpa [offset, List.range'] using this

/-- Claim C1: for equal-length inputs, the encoder returns, in input order,
for each pair the MSB-first bit expansion of the little-endian bytes of the
value, zipped positionally with the ascending indices
`keys[i]*8 .. keys[i]*8+7`, and both outputs have length
`len(values) * 8`. -/
theorem convert_key_value_pairwise_spec (keys : List Nat) (values : List ValueType)
    (h : keys.length = values.length) :
    convert_key_value keys values =
      some (((keys.zip values).map fun p => to_binary p.2).flatten,
            ((keys.zip values).map fun p => List.range' (p.1 * offset) offset).flatten) ∧
    ∀ binary_vec indices, convert_key_value keys values = some (binary_vec, indices) →
      binary_vec.length = values.length * 8 ∧ indices.length = values.length * 8 := by
  have hsnd : ((keys.zip values).map fun p => to_binary p.2) = values.map to_binary := by
    rw [show (fun p : Nat × ValueType => to_binary p.2) = to_binary ∘ Prod.snd from rfl,
      ← List.map_map, List.map_snd_zip _ _ (le_of_eq h.symm)]
  have hfst : ((keys.zip values).map fun p => List.range' (p.1 * offset) offset) =
      keys.map fun k => List.range' (k * offset) offset := by
    rw [show (fun p : Nat × ValueType => List.range' (p.1 * offset) offset) =
        (fun k => List.range' (k * offset) offset) ∘ Prod.fst from rfl,
      ← List.map_map, List.map_fst_zip _ _ (le_of_eq h)]
  have heq := convert_key_value_eq keys values (le_of_eq h.symm)
  rw [← h, List.take_length] at heq
  constructor
  · rw [heq, hsnd, hfst]
  · intro binary_vec indices hbi
    rw [heq] at hbi
    obtain ⟨hb, hi⟩ := Prod.mk.injEq .. ▸ Option.some.inj hbi
    subst hb hi
    refine ⟨flatten_binary_length values, ?_⟩
    rw [flatten_indices_length, h]

/-- Claim C1 witness at `keys = [2, 3]`, `values = [1, 255]`. -/
theorem convert_key_value_pairwise_spec_witness :
    ([2, 3] : List Nat).length = ([1, 255] : List ValueType).length ∧
    (convert_key_value [2, 3] [1, 255] =
      some ((([2, 3].zip ([1, 255] : List ValueType)).map fun p => to_binary p.2).flatten,
            (([2, 3].zip ([1, 255] : List ValueType)).map
                fun p => List.range' (p.1 * offset) offset).flatten) ∧
    ∀ binary_vec indices, convert_key_value [2, 3] [1, 255] = some (binary_vec, indices) →
      binary_vec.length = ([1, 255] : List ValueType).length * 8 ∧
      indices.length = ([1, 255] : List ValueType).length * 8) :=
  ⟨rfl, convert_key_value_pairwise_spec [2, 3] [1, 255] rfl⟩

/-- Claim C2: bit indices of two distinct keys never collide: for
`o1, o2 < 8` and `k1 ≠ k2`, `k1*8 + o1 ≠ k2*8 + o2`. -/
theorem bit_index_no_collision (k1 k2 o1 o2 : Nat)
    (h1 : o1 < offset) (h2 : o2 < offset) (hk : k1 ≠ k2) :
    k1 * offset + o1 ≠ k2 * offset + o2 := by
  simp only [offset] at *
  omega

/-- Claim C2 witness at `k1 = 0`, `k2 = 1`, `o1 = 7`, `o2 = 0`. -/
theorem bit_index_no_collision_witness :
    7 < offset ∧ 0 < offset ∧ (0 : Nat) ≠ 1 ∧ 0 * offset + 7 ≠ 1 * offset + 0 :=
  ⟨by decide, by decide, by decide, bit_index_no_collision 0 1 7 0 (by decide) (by decide) (by decide)⟩

/-- Claim C3: under the precondition `len(keys) = len(values)` every
`keys[i]` access of the loop is in bounds and the encoder succeeds; with
fewer keys than values it fails on an out-of-bounds index access (`none`),
not with an InvalidInput error value. -/
theorem convert_key_value_precondition (keys : List Nat) (values : List ValueType) :
    (keys.length = values.length → (convert_key_value keys values).isSome = true) ∧
    (keys.length < values.length → convert_key_value keys values = none) := by
  constructor
  · intro h
    rw [convert_key_value_eq keys values (le_of_eq h.symm)]
    rfl
  · intro h
    have hne : values ≠ [] := by
      intro he
      rw [he] at h
      simp at h
    exact convert_loop_oob keys values 0 (by omega) hne

/-- Claim C3 witness: in-bounds success at `([0], [5])`, out-of-bounds
failure at `([], [5])`. -/
theorem convert_key_value_precondition_witness :
    (convert_key_value [0] [5]).isSome = true ∧ convert_key_value [] [5] = none :=
  ⟨(convert_key_value_precondition [0] [5]).1 rfl,
   (convert_key_value_precondition [] [5]).2 (by decide)⟩

/-- Claim C4: the concrete evaluations `convert_key_value [0,1] [4,7]` and
`to_binary 6` from the source's unit tests. -/
theorem convert_key_value_concrete :
    convert_key_value [0, 1] [4, 7] =
      some ([false, false, false, false, false, true, false, false,
             false, false, false, false, false, true, true, true],
            [0, 1, 2, 3, 4, 5, 6, 7, 8, 9, 10, 11, 12, 13, 14, 15]) ∧
    to_binary 6 = [false, false, false, false, false, true, true, false] := by
  constructor <;> decide

theorem ModelEngine_complete (b : Option (List Bool × List Nat))
    (bv : List Bool) (iv : List Nat) :
    ModelEngine.batch_verify b (ModelEngine.commit b bv iv).1 bv iv
      (ModelEngine.batch_open b (ModelEngine.commit b bv iv).2 bv iv).1
      (ModelEngine.batch_open b (ModelEngine.commit b bv iv).2 bv iv).2 = true := by
  simp [ModelEngine]

theorem ModelEngine_sound (os d : Option (List Bool × List Nat))
    (bv bv0 : List Bool) (iv iv0 : List Nat)
    (h : ModelEngine.batch_verify os d bv iv (bv0, iv0) (bv0, iv0) = true) :
    bv = bv0 ∧ iv = iv0 := by
  simp [ModelEngine] at h
  exact ⟨h.1.symm, h.2.symm⟩

/-- Claim C5: each of the four protocol operations is exactly one engine
call on the encoder's output, its result returned unchanged. -/
theorem protocol_delegation {U Wit : Type} (E : Engine U Wit)
    (accumulator old_state agg product : U) (keys : List Nat) (values : List ValueType)
    (key : Nat) (value : ValueType) (pi_i pi_e : Wit)
    (binary_vec : List Bool) (indices : List Nat)
    (h : convert_key_value keys values = some (binary_vec, indices)) :
    commit E accumulator keys values = some (E.commit accumulator binary_vec indices) ∧
    update E accumulator old_state agg keys values =
      some (E.update accumulator old_state agg binary_vec indices) ∧
    open_at_key E old_state product key value =
      some (E.batch_open old_state product (to_binary value)
        (List.range' (key * offset) offset)) ∧
    verify_at_key E old_state accumulator key value pi_i pi_e =
      some (E.batch_verify old_state accumulator (to_binary value)
        (List.range' (key * offset) offset) pi_i pi_e) := by
  refine ⟨?_, ?_, ?_, ?_⟩ <;>
    simp [commit, update, open_at_key, verify_at_key, h, convert_single]

/-- Claim C5 witness with the concrete model engine, `keys = [0]`,
`values = [3]`, single pair `(1, 2)`. -/
theorem protocol_delegation_witness :
    convert_key_value [0] [3] = some (to_binary 3, List.range' (0 * offset) offset) ∧
    (commit ModelEngine none [0] [3] =
      some (ModelEngine.commit none (to_binary 3) (List.range' (0 * offset) offset)) ∧
    update ModelEngine none none none [0] [3] =
      some (ModelEngine.update none none none (to_binary 3) (List.range' (0 * offset) offset)) ∧
    open_at_key ModelEngine none none 1 2 =
      some (ModelEngine.batch_open none none (to_binary 2) (List.range' (1 * offset) offset)) ∧
    verify_at_key ModelEngine none none 1 2 ([], []) ([], []) =
      some (ModelEngine.batch_verify none none (to_binary 2) (List.range' (1 * offset) offset)
        ([], []) ([], []))) :=
  ⟨convert_single 0 3,
   protocol_delegation ModelEngine none none none none [0] [3] 1 2 ([], []) ([], [])
     (to_binary 3) (List.range' (0 * offset) offset) (convert_single 0 3)⟩

/-- Claim C6: verify_at_key is total: for every pair of digests, key,
value and witnesses it returns a definite boolean (never the failure
value), the engine's batch_verify being a total boolean function. -/
theorem verify_at_key_total {U Wit : Type} (E : Engine U Wit) (old_state accumulator : U)
    (key : Nat) (value : ValueType) (pi_i pi_e : Wit) :
    ∃ b : Bool, verify_at_key E old_state accumulator key value pi_i pi_e = some b :=
  ⟨E.batch_verify old_state accumulator (to_binary value)
      (List.range' (key * offset) offset) pi_i pi_e,
   by simp [verify_at_key, convert_single]⟩

/-- Claim C7: completeness round-trip: committing a single pair, opening
it, then verifying the same pair succeeds, under the completeness contract
of the engine. -/
theorem commit_open_verify_roundtrip {U Wit : Type} (E : Engine U Wit) (base : U)
    (key : Nat) (value : ValueType) (digest product : U) (pi_i pi_e : Wit)
    (hComplete : ∀ (b : U) (bv : List Bool) (iv : List Nat),
      E.batch_verify b (E.commit b bv iv).1 bv iv
        (E.batch_open b (E.commit b bv iv).2 bv iv).1
        (E.batch_open b (E.commit b bv iv).2 bv iv).2 = true)
    (hc : commit E base [key] [value] = some (digest, product))
    (ho : open_at_key E base product key value = some (pi_i, pi_e)) :
    verify_at_key E base digest key value pi_i pi_e = some true := by
  simp only [commit, convert_single, Option.some.injEq] at hc
  simp only [open_at_key, convert_single, Option.some.injEq] at ho
  simp only [verify_at_key, convert_single, Option.some.injEq]
  have h1 := hComplete base (to_binary value) (List.range' (key * offset) offset)
  rw [hc, ho] at h1
  exact h1

/-- Claim C7 witness with the concrete model engine at `(key, value) =
(0, 5)` from base digest `none`. -/
theorem commit_open_verify_roundtrip_witness :
    (∀ (b : Option (List Bool × List Nat)) (bv : List Bool) (iv : List Nat),
      ModelEngine.batch_verify b (ModelEngine.commit b bv iv).1 bv iv
        (ModelEngine.batch_open b (ModelEngine.commit b bv iv).2 bv iv).1
        (ModelEngine.batch_open b (ModelEngine.commit b bv iv).2 bv iv).2 = true) ∧
    commit ModelEngine none [0] [5] =
      some (some (to_binary 5, List.range' (0 * offset) offset),
            some (to_binary 5, List.range' (0 * offset) offset)) ∧
    open_at_key ModelEngine none (some (to_binary 5, List.range' (0 * offset) offset)) 0 5 =
      some ((to_binary 5, List.range' (0 * offset) offset),
            (to_binary 5, List.range' (0 * offset) offset)) ∧
    verify_at_key ModelEngine none (some (to_binary 5, List.range' (0 * offset) offset)) 0 5
      (to_binary 5, List.range' (0 * offset) offset)
      (to_binary 5, List.range' (0 * offset) offset) = some true :=
  ⟨ModelEngine_complete, by decide, by decide,
   commit_open_verify_roundtrip ModelEngine none 0 5
     (some (to_binary 5, List.range' (0 * offset) offset))
     (some (to_binary 5, List.range' (0 * offset) offset))
     (to_binary 5, List.range' (0 * offset) offset)
     (to_binary 5, List.range' (0 * offset) offset)
     ModelEngine_complete (by decide) (by decide)⟩

/-- Claim C8: soundness under substitution: with an honest commitment and
witness pair for `(key, value)`, verifying any other key (same value) or
any other value (same key) with the same witnesses returns false, under
the soundness contract that the engine accepts these witnesses only for
the matching (bits, indices). -/
theorem verify_at_key_substitution {U Wit : Type} (E : Engine U Wit)
    (base digest product : U) (key : Nat) (value : ValueType) (pi_i pi_e : Wit)
    (key' : Nat) (value' : ValueType)
    (hc : commit E base [key] [value] = some (digest, product))
    (ho : open_at_key E base product key value = some (pi_i, pi_e))
    (hSound : ∀ (bv : List Bool) (iv : List Nat),
      E.batch_verify base digest bv iv pi_i pi_e = true →
      bv = to_binary value ∧ iv = List.range' (key * offset) offset)
    (hne : key' ≠ key ∨ value' ≠ value) :
    verify_at_key E base digest key' value' pi_i pi_e = some false := by
  simp only [verify_at_key, convert_single, Option.some.injEq]
  cases hb : E.batch_verify base digest (to_binary value')
      (List.range' (key' * offset) offset) pi_i pi_e with
  | false => rfl
  | true =>
    obtain ⟨hbv, hiv⟩ := hSound _ _ hb
    have hv : value' = value := to_binary_injective hbv
    have hk : key' = key := by
      have hmul := range'_offset_injective hiv
      have hpos : 0 < offset := by decide
      exact Nat.eq_of_mul_eq_mul_right hpos hmul
    rcases hne with h | h
    · exact absurd hk h
    · exact absurd hv h

/-- Claim C8 witness with the concrete model engine: honest pair
`(0, 5)`, substituted key `1` with the same value. -/
theorem verify_at_key_substitution_witness :
    commit ModelEngine none [0] [5] =
      some (some (to_binary 5, List.range' (0 * offset) offset),
            some (to_binary 5, List.range' (0 * offset) offset)) ∧
    open_at_key ModelEngine none (some (to_binary 5, List.range' (0 * offset) offset)) 0 5 =
      some ((to_binary 5, List.range' (0 * offset) offset),
            (to_binary 5, List.range' (0 * offset) offset)) ∧
    (∀ (bv : List Bool) (iv : List Nat),
      ModelEngine.batch_verify none (some (to_binary 5, List.range' (0 * offset) offset)) bv iv
        (to_binary 5, List.range' (0 * offset) offset)
        (to_binary 5, List.range' (0 * offset) offset) = true →
      bv = to_binary 5 ∧ iv = List.range' (0 * offset) offset) ∧
    ((1 : Nat) ≠ 0 ∨ (5 : ValueType) ≠ 5) ∧
    verify_at_key ModelEngine none (some (to_binary 5, List.range' (0 * offset) offset)) 1 5
      (to_binary 5, List.range' (0 * offset) offset)
      (to_binary 5, List.range' (0 * offset) offset) = some false :=
  ⟨by decide, by decide, fun bv iv h => ModelEngine_sound _ _ bv _ iv _ h,
   Or.inl (by decide),
   verify_at_key_substitution ModelEngine none
     (some (to_binary 5, List.range' (0 * offset) offset))
     (some (to_binary 5, List.range' (0 * offset) offset)) 0 5
     (to_binary 5, List.range' (0 * offset) offset)
     (to_binary 5, List.range' (0 * offset) offset) 1 5
     (by decide) (by decide) (fun bv iv h => ModelEngine_sound _ _ bv _ iv _ h)
     (Or.inl (by decide))⟩

/-- Claim C9: `to_binary` has length 8, folding its bits MSB-first
reconstructs the value, and it is injective on 8-bit values. -/
theorem to_binary_roundtrip (v w : ValueType) :
    (to_binary v).length = 8 ∧
    (to_binary v).foldl (fun acc b => 2 * acc + b.toNat) 0 = v.val ∧
    (to_binary v = to_binary w → v = w) :=
  ⟨to_binary_length v, to_binary_foldl v, to_binary_injective⟩

/-- Claim C9 witness at `v = 6`, `w = 6`. -/
theorem to_binary_roundtrip_witness :
    (to_binary 6).length = 8 ∧
    (to_binary 6).foldl (fun acc b => 2 * acc + b.toNat) 0 = (6 : ValueType).val ∧
    (to_binary 6 = to_binary 6 → (6 : ValueType) = 6) :=
  to_binary_roundtrip 6 6

/-- Claim C10: with more keys than values the encoder succeeds and equals
the encoder on the truncated key list: trailing extra keys are silently
ignored, so commit and update accept such mismatched inputs. -/
theorem convert_key_value_extra_keys (keys : List Nat) (values : List ValueType)
    (h : values.length < keys.length) :
    (convert_key_value keys values).isSome = true ∧
    convert_key_value keys values = convert_key_value (keys.take values.length) values ∧
    ∀ {U Wit : Type} (E : Engine U Wit) (accumulator old_state agg : U),
      (commit E accumulator keys values).isSome = true ∧
      (update E accumulator old_state agg keys values).isSome = true := by
  have h1 := convert_key_value_eq keys values (le_of_lt h)
  have h2 := convert_key_value_eq (keys.take values.length) values
    (by simp [List.length_take]; omega)
  refine ⟨by rw [h1]; rfl, ?_, ?_⟩
  · rw [h1, h2, List.take_take]
    simp
  · intro U Wit E accumulator old_state agg
    constructor <;> simp [commit, update, h1]

/-- Claim C10 witness at `keys = [2, 3, 9]`, `values = [1, 255]` with the
concrete model engine. -/
theorem convert_key_value_extra_keys_witness :
    ([1, 255] : List ValueType).length < ([2, 3, 9] : List Nat).length ∧
    ((convert_key_value [2, 3, 9] [1, 255]).isSome = true ∧
    convert_key_value [2, 3, 9] [1, 255] =
      convert_key_value ([2, 3, 9].take ([1, 255] : List ValueType).length) [1, 255] ∧
    ∀ {U Wit : Type} (E : Engine U Wit) (accumulator old_state agg : U),
      (commit E accumulator [2, 3, 9] [1, 255]).isSome = true ∧
      (update E accumulator old_state agg [2, 3, 9] [1, 255]).isSome = true) :=
  ⟨by decide, convert_key_value_extra_keys [2, 3, 9] [1, 255] (by decide)⟩

end vc
